import Mathlib

/-!
Shallow embedding of `src/model/preprocessing.py` from the
`pc-house-prices-predictions` repository: a configuration-driven tabular
feature-preprocessing engine (action-plan compiler, pipeline assembler,
column-wise elementary transforms, and the `PreProcessor` facade).

Tables are modelled as ordered lists of named columns; a column is a list of
optional rationals (`none` models a missing value / NaN).  Floating-point
numbers are modelled as exact rationals.  Fallible Python operations
(KeyError, ValueError, positional-index errors, casting failures) are
modelled with `Except String`.
-/

namespace HousePrices

/-- Values that can appear in a feature-configuration dictionary:
strings, booleans, numbers, and two-element lists such as clip limits. -/
inductive CfgVal
  | str (s : String)
  | bool (b : Bool)
  | num (q : ℚ)
  | pair (lo hi : ℚ)
  deriving DecidableEq

/-- Python truthiness of a configuration value, as used by
`filter(lambda x: x[1], ...)` in `PreProcessor.__get_active_features`. -/
def CfgVal.truthy : CfgVal → Bool
  | .str s => s ≠ ""
  | .bool b => b
  | .num q => q ≠ 0
  | .pair _ _ => true

/-- Python `str(value)` as used by `__interpret_process_step` when parsing
`imputation_strategy` and `discretizer` declarations (those values are
strings in practice; the rendering of the other variants is best effort). -/
def CfgVal.toStr : CfgVal → String
  | .str s => s
  | .bool b => if b then "True" else "False"
  | .num q => toString q
  | .pair a b => "[" ++ toString a ++ ", " ++ toString b ++ "]"

/-- A feature-configuration dictionary is modelled as an ordered association
list (Python dicts preserve insertion order).  Keys are unique in any list
produced by the Python runtime; theorems that need this carry a `Nodup`
hypothesis. -/
abbrev FeatureConfig := List (String × CfgVal)

/-- Dictionary lookup `config[k]`, returning the first binding of `k`. -/
def lookupKey (c : FeatureConfig) (k : String) : Option CfgVal :=
  (c.find? (fun p => p.1 == k)).map Prod.snd

/-- Python membership test `k in config`. -/
def hasKey (c : FeatureConfig) (k : String) : Bool :=
  c.any (fun p => p.1 == k)

/-- Python `config.update({k: v})`: replace the binding in place when the key
is present, append it otherwise. -/
def dictUpdate (c : FeatureConfig) (k : String) (v : CfgVal) : FeatureConfig :=
  if hasKey c k then c.map (fun p => if p.1 == k then (k, v) else p)
  else c ++ [(k, v)]

/-- Value of `config["name"]` (a string in every well-formed configuration). -/
def cfgName (c : FeatureConfig) : String :=
  match lookupKey c "name" with
  | some (.str s) => s
  | _ => ""

/-- Value of `config["type"]` as stored in the action plan. -/
def cfgTypeV (c : FeatureConfig) : CfgVal :=
  (lookupKey c "type").getD (.str "")

/-- Value of `config["active"]` as stored in the action plan; in the source
this key is always present when read, because `__interpret_config` inserts
`active: True` beforehand. -/
def cfgActiveV (c : FeatureConfig) : CfgVal :=
  (lookupKey c "active").getD (.bool true)

/-- Mean of a list of rationals (`SimpleImputer(strategy="mean")`
statistic over the non-missing entries of a column). -/
def meanQ (l : List ℚ) : ℚ :=
  l.sum / l.length

/-- Median of a list of rationals, matching `numpy` median semantics: the
middle element of the sorted list, or the mean of the two middle elements. -/
def medianQ (l : List ℚ) : ℚ :=
  let s := List.insertionSort (fun a b => a ≤ b) l
  if s.length % 2 = 1 then s.getD (s.length / 2) 0
  else (s.getD (s.length / 2 - 1) 0 + s.getD (s.length / 2) 0) / 2

/-- Equality of fallible results is decidable. -/
instance {ε α : Type} [DecidableEq ε] [DecidableEq α] : DecidableEq (Except ε α) :=
  fun x y =>
    match x, y with
    | .error a, .error b => decidable_of_iff (a = b) (by simp)
    | .error _, .ok _ => isFalse (by simp)
    | .ok _, .error _ => isFalse (by simp)
    | .ok a, .ok b => decidable_of_iff (a = b) (by simp)

/-- Split of a character list on a separator character, with the pending
segment accumulated in reverse; together with `splitChar` this models the
Python `str.split` used on the one-character separators `:` and `.`. -/
def splitCharAux (sep : Char) : List Char → List Char → List (List Char)
  | [], acc => [acc.reverse]
  | c :: rest, acc =>
    if c = sep then acc.reverse :: splitCharAux sep rest []
    else splitCharAux sep rest (c :: acc)

/-- Python `s.split(sep)` for a one-character separator. -/
def splitChar (sep : Char) (s : String) : List String :=
  (splitCharAux sep s.data []).map String.mk

/-- Parse of a nonempty all-digit character list as a base-10 natural. -/
def digitsToNatAux : List Char → ℕ → Option ℕ
  | [], acc => some acc
  | c :: rest, acc =>
    if 48 ≤ c.toNat ∧ c.toNat ≤ 57 then digitsToNatAux rest (acc * 10 + (c.toNat - 48))
    else none

/-- Python `int(s)` on a nonnegative literal (`none` models `ValueError`). -/
def digitsToNat? (l : List Char) : Option ℕ :=
  match l with
  | [] => none
  | _ => digitsToNatAux l 0

/-- Python `int(s)` on a string. -/
def strToNat? (s : String) : Option ℕ :=
  digitsToNat? s.data

/-- Python `float(s)` on a nonnegative decimal literal. -/
def parseFloatNN (l : List Char) : Option ℚ :=
  match splitCharAux '.' l [] with
  | [a] => (digitsToNat? a).map (fun n => (n : ℚ))
  | [a, b] =>
    match digitsToNat? a, digitsToNat? b with
    | some n, some f => some ((n : ℚ) + (f : ℚ) / 10 ^ b.length)
    | _, _ => none
  | _ => none

/-- Python `float(s)` on a decimal literal, with an optional leading minus
sign; `none` models the `ValueError` raised on anything unparseable. -/
def parseFloatQ (s : String) : Option ℚ :=
  match s.data with
  | [] => none
  | c :: rest => if c = '-' then (parseFloatNN rest).map Neg.neg else parseFloatNN s.data

/-- Elementwise function selected by
`FeatureTransformer.__interpret_transformation`.  The names `log`, `log10`,
`log1p`, `exp` and `sqrt` denote transcendental real functions with no exact
rational counterpart; they are represented by the identity map here, and no
theorem in this file evaluates them — the claims only concern which names
are accepted and the `identity` and `square` cases. -/
def transformationFn (t : String) : ℚ → ℚ :=
  if t = "square" then fun x => x * x else fun x => x

/-- Embedding of `FeatureTransformer.__interpret_transformation`, which runs
inside the `FeatureTransformer` constructor: the seven supported names yield
a function, anything else raises a `ValueError`. -/
def interpretTransformation (t : String) : Except String (ℚ → ℚ) :=
  if t = "log" then .ok (transformationFn t)
  else if t = "log10" then .ok (transformationFn t)
  else if t = "log1p" then .ok (transformationFn t)
  else if t = "exp" then .ok (transformationFn t)
  else if t = "square" then .ok (transformationFn t)
  else if t = "sqrt" then .ok (transformationFn t)
  else if t = "identity" then .ok (transformationFn t)
  else .error ("The value " ++ t ++ " for transformation is not supported.")

/-- An unfitted elementary transform, as constructed by
`PreProcessor.__interpret_process_step`.  Each constructor records exactly
the state its Python counterpart stores at construction time. -/
inductive Transformer
  | identity
  | featureTransformer (transformation : String)
  | featureClipper (limits : CfgVal)
  | featureImputer (strategy : String) (parameter : Option CfgVal)
  | featureScaler (strategy : CfgVal)
  | featureWeigher (weight : CfgVal)
  | featureDiscretizer (nBins : ℕ) (strategy : String)
  deriving DecidableEq

/-- Embedding of the `FeatureTransformer` constructor: it invokes
`__interpret_transformation`, which raises on an unsupported name. -/
def featureTransformerNew (t : String) : Except String Transformer :=
  match interpretTransformation t with
  | .ok _ => .ok (.featureTransformer t)
  | .error e => .error e

/-- Embedding of `PreProcessor.__interpret_process_step`.  Note the source
passes `strategy="constant"` to `FeatureImputer` on line 1018 whatever
strategy was parsed from the declaration value; this embedding reproduces
that literally. -/
def interpretProcessStep (key : String) (value : CfgVal) (type_ : CfgVal) :
    Except String Transformer :=
  if key = "transformation" then
    match value with
    | .str t => featureTransformerNew t
    | _ => featureTransformerNew value.toStr
  else if key = "limits" then
    .ok (.featureClipper value)
  else if key = "imputation_strategy" then
    let parts := splitChar ':' value.toStr
    let strategy := parts.headD ""
    let rest := parts.tail
    if strategy = "constant" then
      match rest.head? with
      | none => .error "IndexError: list index out of range"
      | some p =>
        if type_ = .str "string" ∨ type_ = .str "str" ∨ type_ = .str "object" then
          .ok (.featureImputer "constant" (some (.str p)))
        else
          match parseFloatQ p with
          | some q => .ok (.featureImputer "constant" (some (.num q)))
          | none => .error "ValueError: could not convert string to float"
    else
      .ok (.featureImputer "constant" none)
  else if key = "discretizer" then
    match splitChar ':' value.toStr with
    | [strategy, nb] =>
      match strToNat? nb with
      | some n => .ok (.featureDiscretizer n strategy)
      | none => .error "ValueError: invalid literal for int"
    | _ => .error "ValueError: unpacking"
  else if key = "scaler" then
    .ok (.featureScaler value)
  else if key = "weight" then
    .ok (.featureWeigher value)
  else
    .ok .identity

/-- A column of a table: one optional rational per row (`none` is NaN). -/
abbrev Col := List (Option ℚ)

/-- The imputer object chosen by `FeatureImputer.__interpret_imputation`:
a `SimpleImputer` with a strategy and optional fill value, or `Identity`
for unknown strategy names. -/
inductive ImputerKind
  | simple (strategy : String) (fillValue : Option CfgVal)
  | identityImp
  deriving DecidableEq

/-- Embedding of `FeatureImputer.__interpret_imputation`. -/
def interpretImputation (imputation : String) (param : Option CfgVal) : ImputerKind :=
  if imputation = "mean" then .simple "mean" none
  else if imputation = "median" then .simple "median" none
  else if imputation = "constant" then .simple "constant" param
  else .identityImp

/-- Per-column statistic computed by `SimpleImputer.fit`: the mean or median
of the non-missing entries, or the constant fill value (sklearn fills with 0
when `fill_value` is left as `None` on numeric data; a string fill value
lies outside the numeric column model and is likewise rendered as 0, a case
no theorem below evaluates). -/
def columnStatistic (strategy : String) (fillValue : Option CfgVal) (col : Col) : ℚ :=
  if strategy = "mean" then meanQ (col.filterMap id)
  else if strategy = "median" then medianQ (col.filterMap id)
  else
    match fillValue with
    | some (.num q) => q
    | _ => 0

/-- Clipping of a single value to the interval given to `FeatureClipper`,
matching `pandas.DataFrame.clip(lower, upper)`. -/
def clipQ (lo hi x : ℚ) : ℚ := min (max x lo) hi

/-- Minimum of the non-missing entries of a column (nan-aware, as in
sklearn scalers). -/
def colMin (col : Col) : ℚ :=
  match col.filterMap id with
  | [] => 0
  | x :: xs => xs.foldl min x

/-- Maximum of the non-missing entries of a column. -/
def colMax (col : Col) : ℚ :=
  match col.filterMap id with
  | [] => 0
  | x :: xs => xs.foldl max x

/-- A fitted elementary transform.  In this system every transform is bound
to a single column (the spec's ColumnRouter contract: target columns are
always single-column selections), so fitted state is per one column. -/
inductive FittedTransformer
  | identity
  | reexpress (transformation : String)
  | clipper (limits : CfgVal)
  | imputerSimple (strategy : String) (stat : ℚ)
  | imputerIdentity
  | scalerMinMax (mn mx : ℚ)
  | scalerStandard (mean variance : ℚ)
  | scalerRobust (med iqr : ℚ)
  | scalerIdentity
  | weigher (weight : CfgVal)
  | discretizer (mn mx : ℚ) (nBins : ℕ) (valueMap : List (ℚ × ℚ))
  deriving DecidableEq

/-- Variance of a list of rationals (population variance, as in
`StandardScaler`). -/
def varQ (l : List ℚ) : ℚ :=
  meanQ (l.map (fun x => (x - meanQ l) * (x - meanQ l)))

/-- Quantile with linear interpolation is irrational-free but intricate; the
robust scaler is not evaluated by any theorem below, so its interquartile
range is modelled as the max-min range.  The same applies to the `kmeans`
and `quantile` binning strategies, modelled like `uniform` binning. -/
def iqrQ (l : List ℚ) : ℚ :=
  (match l with | [] => 0 | x :: xs => xs.foldl max x) -
    (match l with | [] => 0 | x :: xs => xs.foldl min x)

/-- Bin index assigned by a fitted `KBinsDiscretizer` with uniform edges:
the value position in the grid from the fitted minimum to the fitted
maximum, clamped into `[0, nBins - 1]`. -/
def binIndex (mn mx : ℚ) (nBins : ℕ) (x : ℚ) : ℕ :=
  if mx ≤ mn ∨ nBins = 0 then 0
  else min (nBins - 1) (Int.toNat ⌊(x - mn) * nBins / (mx - mn)⌋)

/-- Value map trained by `FeatureDiscretizer.__train_value_maps`: for each
bin index realised on the fit data, the mean of the original values that
fell in that bin. -/
def trainValueMap (mn mx : ℚ) (nBins : ℕ) (col : Col) : List (ℚ × ℚ) :=
  let vals := col.filterMap id
  let idxs := (vals.map (fun x => (binIndex mn mx nBins x : ℚ))).dedup
  idxs.map (fun i =>
    (i, meanQ (vals.filter (fun x => (binIndex mn mx nBins x : ℚ) == i))))

/-- Embedding of transform fitting on one column (each Python class method
`fit`); stateless transforms just carry their construction data over. -/
def transformerFit (t : Transformer) (col : Col) : FittedTransformer :=
  match t with
  | .identity => .identity
  | .featureTransformer tr => .reexpress tr
  | .featureClipper l => .clipper l
  | .featureImputer s p =>
    match interpretImputation s p with
    | .identityImp => .imputerIdentity
    | .simple strat fv => .imputerSimple strat (columnStatistic strat fv col)
  | .featureScaler v =>
    if v = .str "min_max" then .scalerMinMax (colMin col) (colMax col)
    else if v = .str "standard" then
      .scalerStandard (meanQ (col.filterMap id)) (varQ (col.filterMap id))
    else if v = .str "robust" then
      .scalerRobust (medianQ (col.filterMap id)) (iqrQ (col.filterMap id))
    else .scalerIdentity
  | .featureWeigher w => .weigher w
  | .featureDiscretizer n _ =>
    .discretizer (colMin col) (colMax col) n (trainValueMap (colMin col) (colMax col) n col)

/-- Embedding of transform application on one column (each Python class
method `transform`); missing values propagate through elementwise numeric
operations as NaN does.  The `standard` scaler divides by the irrational
square root of the variance in the source; the division is omitted here and
no theorem below evaluates that case. -/
def fittedTransform (f : FittedTransformer) (col : Col) : Except String Col :=
  match f with
  | .identity => .ok col
  | .reexpress tr => .ok (col.map (Option.map (transformationFn tr)))
  | .clipper l =>
    match l with
    | .pair lo hi => .ok (col.map (Option.map (clipQ lo hi)))
    | _ => .error "TypeError: clip limits are not a two-element sequence"
  | .imputerSimple _ stat => .ok (col.map (fun v => some (v.getD stat)))
  | .imputerIdentity => .ok col
  | .scalerMinMax mn mx => .ok (col.map (Option.map (fun x => (x - mn) / (mx - mn))))
  | .scalerStandard m _ => .ok (col.map (Option.map (fun x => x - m)))
  | .scalerRobust med iqr => .ok (col.map (Option.map (fun x => (x - med) / iqr)))
  | .scalerIdentity => .ok col
  | .weigher w =>
    match w with
    | .num q => .ok (col.map (Option.map (fun x => x * q)))
    | _ => .error "TypeError: weight is not a number"
  | .discretizer mn mx n vm =>
    .ok (col.map (Option.map (fun x =>
      let i : ℚ := (binIndex mn mx n x : ℚ)
      match vm.find? (fun p => p.1 == i) with
      | some p => p.2
      | none => i)))

/-- A table: ordered list of named columns (the pandas DataFrame model). -/
abbrev Table := List (String × Col)

/-- Column selection `X[features]`; a missing name raises a KeyError. -/
def selectColumns (X : Table) (features : List String) : Except String Table :=
  features.mapM (fun f =>
    match X.find? (fun c => c.1 == f) with
    | some c => .ok c
    | none => .error ("KeyError: " ++ f))

/-- One (name, transformer, [column]) triple handed to the pandas-based
`ColumnTransformer`; the column is a positional index, as in the source
where it is the feature order. -/
structure CTTriple where
  name : String
  trans : Transformer
  col : ℕ
  deriving DecidableEq

/-- A fitted triple of a column transformer stage. -/
structure FittedCTTriple where
  name : String
  fitted : FittedTransformer
  col : ℕ
  deriving DecidableEq

/-- One stage of the assembled pipeline: a `ColumnTransformer` over triples,
or the `Identity()` fallback used when the action plan is empty. -/
inductive PipeStage
  | ct (triples : List CTTriple)
  | identityStage
  deriving DecidableEq

/-- A fitted pipeline stage. -/
inductive FittedStage
  | ct (triples : List FittedCTTriple)
  | identityStage
  deriving DecidableEq

/-- Positional column slice `X[:, i]`; an out-of-range index raises. -/
def sliceAt (X : Table) (i : ℕ) : Except String Col :=
  match X.get? i with
  | some c => .ok c.2
  | none => .error "ValueError: column index out of range"

/-- Fitting one stage on a table: `ColumnTransformer.fit` fits every
transformer on its positional column slice. -/
def stageFit (s : PipeStage) (X : Table) : Except String FittedStage :=
  match s with
  | .identityStage => .ok .identityStage
  | .ct triples => do
    let f ← triples.mapM (fun t => do
      let c ← sliceAt X t.col
      pure { name := t.name, fitted := transformerFit t.trans c, col := t.col : FittedCTTriple })
    pure (.ct f)

/-- Transforming one stage.  The reassembly of per-transformer outputs into
a single named table is performed by the collaborator `dataframe_transformer`
whose source is not in the repository snapshot; the naming discipline is
modelled from the spec: output columns appear in triple order, each named
after its source feature, with row order preserved. -/
def stageTransform (s : FittedStage) (X : Table) : Except String Table :=
  match s with
  | .identityStage => .ok X
  | .ct triples =>
    triples.mapM (fun t => do
      let c ← sliceAt X t.col
      let r ← fittedTransform t.fitted c
      pure (t.name, r))

/-- Embedding of `sklearn.pipeline.Pipeline.fit`: every stage is fit on the
accumulated table and, except for the last one, immediately applied to
produce the next stage input. -/
def pipelineFit : List (String × PipeStage) → Table → Except String (List (String × FittedStage))
  | [], _ => .ok []
  | [(n, s)], X => do
    let fs ← stageFit s X
    pure [(n, fs)]
  | (n, s) :: rest, X => do
    let fs ← stageFit s X
    let X2 ← stageTransform fs X
    let frest ← pipelineFit rest X2
    pure ((n, fs) :: frest)

/-- Embedding of `Pipeline.transform`: left-to-right stage application. -/
def pipelineTransform (stages : List (String × FittedStage)) (X : Table) :
    Except String Table :=
  stages.foldlM (fun acc s => stageTransform s.2 acc) X

/-- One row of the compiled action plan, mirroring the dataframe columns
built by `PreProcessor.__create_action_plan`. -/
structure PlanRow where
  featureOrder : ℕ
  featureName : String
  active : CfgVal
  type_ : CfgVal
  transformOrder : ℕ
  key : String
  value : CfgVal
  deriving DecidableEq

/-- Step declarations of one feature configuration: every dictionary entry
whose key is not one of `name`, `active`, `type`, `encode`,
`polynomial_degree`, in insertion order. -/
def stepEntries (c : FeatureConfig) : List (String × CfgVal) :=
  c.filter (fun p =>
    ¬ (p.1 = "name" ∨ p.1 = "active" ∨ p.1 = "type" ∨ p.1 = "encode" ∨
       p.1 = "polynomial_degree"))

/-- Number of step declarations of one feature. -/
def stepCount (c : FeatureConfig) : ℕ := (stepEntries c).length

/-- One flattened row, the tuple
`(j, config["name"], config["active"], config["type"], i, k, config[k])`. -/
def rowOf (j : ℕ) (c : FeatureConfig) (i : ℕ) (kv : String × CfgVal) : PlanRow :=
  { featureOrder := j
    featureName := cfgName c
    active := cfgActiveV c
    type_ := cfgTypeV c
    transformOrder := i
    key := kv.1
    value := kv.2 }

/-- Rows flattened from the configuration list: one row per (feature, step)
pair, with `transformOrder` the step position within that feature and
`featureOrder` the feature position in the list. -/
def flatRows (cfgs : List FeatureConfig) : List PlanRow :=
  (cfgs.enum.map (fun jc =>
    (stepEntries jc.2).enum.map (fun ik => rowOf jc.1 jc.2 ik.1 ik.2))).flatten

/-- Distinct values of a list in first-occurrence order relative to a list
of already-seen values. -/
def uniqueFirstAux : List ℕ → List ℕ → List ℕ
  | [], _ => []
  | x :: xs, seen =>
    if x ∈ seen then uniqueFirstAux xs seen else x :: uniqueFirstAux xs (x :: seen)

/-- Distinct values of a list in first-occurrence order, matching
`pandas.Series.unique`. -/
def uniqueFirst (l : List ℕ) : List ℕ :=
  uniqueFirstAux l []

/-- The identity row synthesized by `__create_action_plan` for a
(stage, feature) pair with no declared step. -/
def synthRow (names : List String) (activeD typesD : List (String × CfgVal))
    (col : String) (order : ℕ) : PlanRow :=
  { featureOrder := names.indexOf col
    featureName := col
    active := ((activeD.find? (fun p => p.1 == col)).map Prod.snd).getD (.bool true)
    type_ := ((typesD.find? (fun p => p.1 == col)).map Prod.snd).getD (.str "")
    transformOrder := order
    key := "transformation"
    value := .str "identity" }

/-- Body of the inner loop of `__create_action_plan`: append a synthesized
identity row when the accumulated dataframe has no row for this
(feature, order) pair. -/
def synthStep (names : List String) (activeD typesD : List (String × CfgVal))
    (order : ℕ) (df : List PlanRow) (col : String) : List PlanRow :=
  if (df.filter (fun r => r.featureName == col && r.transformOrder == order)).length = 0
  then df ++ [synthRow names activeD typesD col order]
  else df

/-- The inner loop of `__create_action_plan`: revisit every feature name
for one observed transform order. -/
def synthInner (names : List String) (activeD typesD : List (String × CfgVal))
    (order : ℕ) (df : List PlanRow) : List PlanRow :=
  names.foldl (synthStep names activeD typesD order) df

/-- The double loop of `__create_action_plan`: for every observed transform
order and every feature name, append a synthesized identity row when the
accumulated dataframe has no row for that (feature, order) pair. -/
def synthesize (names : List String) (activeD typesD : List (String × CfgVal))
    (orders : List ℕ) (df0 : List PlanRow) : List PlanRow :=
  orders.foldl (fun df order => synthInner names activeD typesD order df) df0

/-- Lexicographic comparison used to model
`df.sort_values(["transform_order", "feature_order"])`. -/
def planLE (r s : PlanRow) : Prop :=
  r.transformOrder < s.transformOrder ∨
    (r.transformOrder = s.transformOrder ∧ r.featureOrder ≤ s.featureOrder)

/-- Comparison of plan rows is decidable. -/
instance : DecidableRel planLE := fun r s => by
  unfold planLE; infer_instance

/-- The plan ordering is total. -/
instance : IsTotal PlanRow planLE :=
  ⟨by intro a b; unfold planLE; omega⟩

/-- The plan ordering is transitive. -/
instance : IsTrans PlanRow planLE :=
  ⟨by intro a b c; unfold planLE; omega⟩

/-- Embedding of `PreProcessor.__create_action_plan`, reading the names,
active flags and types that `__interpret_config` derives from the
configuration list.  Sorting by the pair of keys is modelled with a stable
insertion sort. -/
def createActionPlan (cfgs : List FeatureConfig) : List PlanRow :=
  let df := flatRows cfgs
  let names := cfgs.map cfgName
  let activeD := cfgs.map (fun c => (cfgName c, cfgActiveV c))
  let typesD := cfgs.map (fun c => (cfgName c, cfgTypeV c))
  let df2 := synthesize names activeD typesD (uniqueFirst (df.map (·.transformOrder))) df
  List.insertionSort planLE df2

/-- Embedding of `PreProcessor.__set_preprocessor`: group the plan by
transform order, build one `ColumnTransformer` stage per order with triples
sorted by feature order, and fall back to a single `Identity` stage when
the plan is empty.  Fails when `__interpret_process_step` raises. -/
def setPreprocessor (plan : List PlanRow) : Except String (List (String × PipeStage)) := do
  let steps ← (uniqueFirst (plan.map (·.transformOrder))).mapM (fun o => do
    let dfStep := List.insertionSort (fun r s => r.featureOrder ≤ s.featureOrder)
      (plan.filter (fun r => r.transformOrder == o))
    let triples ← dfStep.mapM (fun r => do
      let t ← interpretProcessStep r.key r.value r.type_
      pure { name := r.featureName, trans := t, col := r.featureOrder : CTTriple })
    pure ("step_" ++ toString o, PipeStage.ct triples))
  if steps.length > 0 then pure steps
  else pure [("step_0", PipeStage.identityStage)]

/-- In-place default of `active`, the per-dictionary half of
`PreProcessor.__interpret_config`. -/
def mutateActive (c : FeatureConfig) : FeatureConfig :=
  if hasKey c "active" then c else dictUpdate c "active" (.bool true)

/-- The configuration list after `__interpret_config` has filled in the
`active` defaults (the Python code mutates the caller-supplied dicts). -/
def interpretConfigList (cfgs : List FeatureConfig) : List FeatureConfig :=
  cfgs.map mutateActive

/-- Embedding of `PreProcessor.__get_active_features`: names whose stored
active flag is truthy, in insertion order. -/
def getActiveFeatures (fa : List (String × CfgVal)) : List String :=
  (fa.filter (fun p => p.2.truthy)).map Prod.fst

/-- Lowercasing of one ASCII character, Python `str.lower` semantics on the
type names that occur in configurations. -/
def lowerChar (c : Char) : Char :=
  if 65 ≤ c.toNat ∧ c.toNat ≤ 90 then Char.ofNat (c.toNat + 32) else c

/-- Whether the pattern is a prefix of the character list. -/
def prefixChars : List Char → List Char → Bool
  | [], _ => true
  | _ :: _, [] => false
  | a :: as, b :: bs => a == b && prefixChars as bs

/-- Whether the pattern occurs contiguously in the character list. -/
def containsChars (pat : List Char) : List Char → Bool
  | [] => pat.isEmpty
  | b :: bs => prefixChars pat (b :: bs) || containsChars pat bs

/-- True when the lowered type name contains the substring `int`
(the test `"int" in type_.lower()` of `__cast_columns`). -/
def typeHasInt (ty : String) : Bool :=
  containsChars "int".data (ty.data.map lowerChar)

/-- Round half to even on an exact rational, the semantics of
`pandas.Series.round(0)` (numpy rounding). -/
def qRoundEven (x : ℚ) : ℤ :=
  if x - ⌊x⌋ = (1 : ℚ) / 2 then (if Even ⌊x⌋ then ⌊x⌋ else ⌊x⌋ + 1)
  else round x

/-- Casting one integer-typed column: `round(0)` then `astype`; pandas
raises on a NaN entry when casting to an integer dtype. -/
def castIntColumn (col : Col) : Except String Col :=
  col.mapM (fun v =>
    match v with
    | some x => .ok (some ((qRoundEven x : ℤ) : ℚ))
    | none => .error "ValueError: cannot convert non-finite values to integer")

/-- Replacement of a named column in place, `X[column] = newCol`. -/
def replaceColumn (X : Table) (name : String) (newCol : Col) : Table :=
  X.map (fun c => if c.1 == name then (c.1, newCol) else c)

/-- String content of a declared type (a string in every well-formed
configuration). -/
def typeString (v : CfgVal) : String :=
  match v with
  | .str s => s
  | _ => ""

/-- Reading one named column, `X[column]`; raises a KeyError when absent. -/
def getColumn (X : Table) (name : String) : Except String Col :=
  match X.find? (fun c => c.1 == name) with
  | some c => .ok c.2
  | none => .error ("KeyError: " ++ name)

/-- Casting of one column to its declared type: integer types round
half-to-even first; casting a non-integer type changes no value in the
rational column model. -/
def castOneColumn (ty : CfgVal) (col : Col) : Except String Col :=
  if typeHasInt (typeString ty) then castIntColumn col else .ok col

/-- Embedding of `PreProcessor.__cast_columns`: every declared feature type
is cast in declaration order; reading a column absent from the transformed
table raises a KeyError. -/
def castColumns (types : List (String × CfgVal)) (X : Table) : Except String Table :=
  types.foldlM (fun acc p => do
    let col ← getColumn acc p.1
    let newCol ← castOneColumn p.2 col
    pure (replaceColumn acc p.1 newCol)) X

/-- State of a `PreProcessor` instance: the constructor stores the
configuration list and leaves the derived fields unset. -/
structure PreProcessor where
  featuresConfig : List FeatureConfig
  featureNames : List String := []
  featureActive : List (String × CfgVal) := []
  featureTypes : List (String × CfgVal) := []
  preprocessor : Option (List (String × FittedStage)) := none
  deriving DecidableEq

/-- Embedding of `PreProcessor.fit`: interpret the configuration (mutating
the stored dictionaries), compile the action plan, assemble the pipeline,
restrict the table to active features and fit the pipeline on it. -/
def PreProcessor.fit (pp : PreProcessor) (X : Table) : Except String PreProcessor := do
  let cfgs := interpretConfigList pp.featuresConfig
  let names := cfgs.map cfgName
  let activeD := cfgs.map (fun c => (cfgName c, cfgActiveV c))
  let typesD := cfgs.map (fun c => (cfgName c, cfgTypeV c))
  let plan := createActionPlan cfgs
  let pipe ← setPreprocessor plan
  let features := getActiveFeatures activeD
  let Xf ← selectColumns X features
  let fitted ← pipelineFit pipe Xf
  pure { featuresConfig := cfgs, featureNames := names, featureActive := activeD,
         featureTypes := typesD, preprocessor := some fitted }

/-- Embedding of `PreProcessor.transform`: restrict to active features, run
the fitted pipeline, cast every declared column to its declared type. -/
def PreProcessor.transform (pp : PreProcessor) (X : Table) : Except String Table := do
  let features := getActiveFeatures pp.featureActive
  let Xf ← selectColumns X features
  match pp.preprocessor with
  | none => .error "AttributeError: PreProcessor object has no attribute preprocessor"
  | some pipe => do
    let Xt ← pipelineTransform pipe Xf
    castColumns pp.featureTypes Xt

/-- Embedding of `PreProcessor.fit_transform`: `self.fit(X)` then
`self.transform(X)`. -/
def PreProcessor.fitTransform (pp : PreProcessor) (X : Table) : Except String Table := do
  let pp2 ← pp.fit X
  pp2.transform X

/-- Success test on a fallible result. -/
def isOkE {ε α : Type} : Except ε α → Bool
  | .ok _ => true
  | .error _ => false

/-- Named column lookup in a table. -/
def lookupCol (X : Table) (name : String) : Option Col :=
  (X.find? (fun c => c.1 == name)).map Prod.snd

/-- Maximum declared step count over a configuration list (0 when the list
is empty or no feature declares a step). -/
def maxSteps (cfgs : List FeatureConfig) : ℕ :=
  (cfgs.map stepCount).foldr max 0

/-- Recursion-friendly reformulation of `flatRows` parameterised by the
starting feature position, used only to reason about `flatRows`. -/
def flatAux : ℕ → List FeatureConfig → List PlanRow
  | _, [] => []
  | j, c :: rest =>
    (stepEntries c).enum.map (fun ik => rowOf j c ik.1 ik.2) ++ flatAux (j + 1) rest

/-- Number of plan rows for a given (feature order, transform order) pair. -/
def countFO (j o : ℕ) (l : List PlanRow) : ℕ :=
  l.countP (fun r => r.featureOrder == j && r.transformOrder == o)

/-- Number of plan rows for a given (feature name, transform order) pair,
the quantity tested by the synthesis loop of `__create_action_plan`. -/
def countName (col : String) (o : ℕ) (l : List PlanRow) : ℕ :=
  l.countP (fun r => r.featureName == col && r.transformOrder == o)

/-- Row coherence between feature order and feature name: the row names the
feature sitting at its recorded position of the configuration list. -/
def AlignedRow (names : List String) (r : PlanRow) : Prop :=
  r.featureOrder < names.length ∧ names.getD r.featureOrder "" = r.featureName

/-- Concrete two-feature configuration exercising the action-plan compiler:
feature `a` declares two steps, feature `b` declares one. -/
def exCfgs : List FeatureConfig :=
  [[("name", .str "a"), ("type", .str "float"), ("limits", .pair 0 10),
    ("scaler", .str "min_max")],
   [("name", .str "b"), ("type", .str "float"), ("weight", .num 2)]]

/-- Concrete configuration with an inactive second feature and no declared
steps. -/
def inactCfgs : List FeatureConfig :=
  [[("name", .str "a"), ("type", .str "float")],
   [("name", .str "b"), ("type", .str "float"), ("active", .bool false)]]

/-- Concrete two-column table matching `inactCfgs`. -/
def inactX : Table := [("a", [some 1]), ("b", [some 2])]

/-- Concrete single-feature `PreProcessor` instance. -/
def onePp : PreProcessor :=
  { featuresConfig := [[("name", .str "a"), ("type", .str "float")]] }

/-- Concrete single-column table matching `onePp`. -/
def oneX : Table := [("a", [some 1])]

/-- State of `onePp` after a successful fit on `oneX`: the configuration
has received the `active` default, the derived dictionaries are filled and
the fitted pipeline is the single identity fallback stage. -/
def onePpFitted : PreProcessor :=
  { featuresConfig := [[("name", .str "a"), ("type", .str "float"), ("active", .bool true)]]
    featureNames := ["a"]
    featureActive := [("a", .bool true)]
    featureTypes := [("a", .str "float")]
    preprocessor := some [("step_0", .identityStage)] }

/-! ### Theorems -/

/-- Inversion of a successful bind. -/
theorem bindOkIff {ε α β : Type} (x : Except ε α) (f : α → Except ε β) (b : β) :
    (x >>= f) = .ok b ↔ ∃ a, x = .ok a ∧ f a = .ok b := by
  cases x <;> simp [Bind.bind, Except.bind]

/-- C6: clipping keeps every value inside the closed interval, leaves
interior values unchanged and sends exterior values to the nearest bound. -/
theorem featureClipper_bounds (lo hi : ℚ) (h : lo ≤ hi) (col : Col) :
    fittedTransform (.clipper (.pair lo hi)) col =
      .ok (col.map (Option.map (clipQ lo hi))) ∧
    ∀ x : ℚ, lo ≤ clipQ lo hi x ∧ clipQ lo hi x ≤ hi ∧
      (lo ≤ x → x ≤ hi → clipQ lo hi x = x) ∧
      (x < lo → clipQ lo hi x = lo) ∧
      (hi < x → clipQ lo hi x = hi) := by
  refine ⟨rfl, fun x => ⟨?_, ?_, ?_, ?_, ?_⟩⟩
  · exact le_min (le_max_right _ _) h
  · exact min_le_right _ _
  · intro h1 h2
    simp only [clipQ]
    rw [max_eq_left h1, min_eq_left h2]
  · intro h1
    simp only [clipQ]
    rw [max_eq_right h1.le, min_eq_left h]
  · intro h1
    simp only [clipQ]
    rw [max_eq_left (h.trans h1.le), min_eq_right h1.le]

/-- Closed instance of the clipping theorem at lo = 0, hi = 10 on the column
from the spec scenario. -/
theorem featureClipper_bounds_witness :
    ((0 : ℚ) ≤ 10) ∧
    (fittedTransform (.clipper (.pair 0 10)) [some (-5), some 15, some 5] =
      .ok ([some (-5), some 15, some 5].map (Option.map (clipQ 0 10))) ∧
    ∀ x : ℚ, (0 : ℚ) ≤ clipQ 0 10 x ∧ clipQ 0 10 x ≤ 10 ∧
      ((0 : ℚ) ≤ x → x ≤ 10 → clipQ 0 10 x = x) ∧
      (x < 0 → clipQ 0 10 x = 0) ∧
      ((10 : ℚ) < x → clipQ 0 10 x = 10)) :=
  ⟨by decide, featureClipper_bounds 0 10 (by decide) [some (-5), some 15, some 5]⟩

/-- C7: constructing a FeatureTransformer succeeds exactly on the seven
supported transformation names and raises a ValueError on every other. -/
theorem featureTransformer_name_validation (t : String) :
    isOkE (featureTransformerNew t) = true ↔
      t ∈ ["log", "log10", "log1p", "exp", "square", "sqrt", "identity"] := by
  unfold featureTransformerNew interpretTransformation
  split_ifs with h1 h2 h3 h4 h5 h6 h7 <;> simp [isOkE, *]

/-- C8: an unknown step key never fails interpretation; it degrades to the
Identity transform. -/
theorem unknown_step_key_identity (key : String) (value type_ : CfgVal)
    (h : key ∉ ["transformation", "limits", "imputation_strategy", "discretizer",
      "scaler", "weight"]) :
    interpretProcessStep key value type_ = .ok .identity := by
  simp only [List.mem_cons, List.not_mem_nil, or_false, not_or] at h
  obtain ⟨h1, h2, h3, h4, h5, h6⟩ := h
  unfold interpretProcessStep
  simp [h1, h2, h3, h4, h5, h6]

/-- Closed instance of the unknown-step theorem on the inert key encode. -/
theorem unknown_step_key_identity_witness :
    ("encode" ∉ ["transformation", "limits", "imputation_strategy", "discretizer",
      "scaler", "weight"]) ∧
    interpretProcessStep "encode" (.str "onehot") (.str "float") = .ok .identity :=
  ⟨by decide, unknown_step_key_identity "encode" (.str "onehot") (.str "float") (by decide)⟩

unseal Rat.add Rat.sub Rat.mul Rat.inv in
/-- C1 (code bug): a declared mean (or median) imputation strategy is parsed
and then discarded by step interpretation, which always constructs
FeatureImputer(strategy="constant"); with no parameter the fitted imputer
fills missing entries with 0, not with the fit-time mean (or median), while
the FeatureImputer class itself implements the mean strategy correctly. -/
theorem imputation_strategy_always_constant :
    interpretProcessStep "imputation_strategy" (.str "mean") (.str "float") =
      .ok (.featureImputer "constant" none) ∧
    interpretProcessStep "imputation_strategy" (.str "median") (.str "float") =
      .ok (.featureImputer "constant" none) ∧
    fittedTransform (transformerFit (.featureImputer "constant" none)
      [some 1, none, some 3]) [some 1, none, some 3] = .ok [some 1, some 0, some 3] ∧
    fittedTransform (transformerFit (.featureImputer "mean" none)
      [some 1, none, some 3]) [some 1, none, some 3] = .ok [some 1, some 2, some 3] ∧
    fittedTransform (transformerFit (.featureImputer "median" none)
      [some 1, none, some 3]) [some 1, none, some 3] = .ok [some 1, some 2, some 3] :=
  ⟨by decide, by decide, by decide, by decide, by decide⟩

unseal Rat.add Rat.sub Rat.mul Rat.inv in
/-- C2 (code bug): with an inactive feature in the configuration, fit
succeeds but transform fails: `__cast_columns` iterates over every declared
feature type, including inactive features, and reads the inactive feature
column, which is absent from the transformed table. -/
theorem inactive_feature_transform_raises :
    isOkE (({ featuresConfig := inactCfgs } : PreProcessor).fit inactX) = true ∧
    (({ featuresConfig := inactCfgs } : PreProcessor).fit inactX).bind
      (fun p => p.transform inactX) = .error "KeyError: b" :=
  ⟨by decide, by decide⟩

/-- C5: fit_transform on an instance equals fit followed by transform of the
fitted instance on the same table. -/
theorem fitTransform_is_fit_then_transform (pp : PreProcessor) (X : Table)
    (pp2 : PreProcessor) (h : pp.fit X = .ok pp2) :
    pp.fitTransform X = pp2.transform X := by
  unfold PreProcessor.fitTransform
  show (pp.fit X).bind (fun p => p.transform X) = pp2.transform X
  rw [h]
  rfl

/-- Closed instance of the fit_transform theorem on a one-feature
configuration. -/
theorem fitTransform_is_fit_then_transform_witness :
    (onePp.fit oneX = .ok onePpFitted) ∧
    onePp.fitTransform oneX = onePpFitted.transform oneX :=
  ⟨by decide, fitTransform_is_fit_then_transform onePp oneX onePpFitted (by decide)⟩

/-- A successful fit stores the interpreted (mutated) configuration list. -/
theorem fit_ok_featuresConfig {pp pp2 : PreProcessor} {X : Table}
    (h : pp.fit X = .ok pp2) :
    pp2.featuresConfig = interpretConfigList pp.featuresConfig := by
  unfold PreProcessor.fit at h
  dsimp only at h
  rw [bindOkIff] at h
  obtain ⟨pipe, _, h⟩ := h
  rw [bindOkIff] at h
  obtain ⟨Xf, _, h⟩ := h
  rw [bindOkIff] at h
  obtain ⟨fitted, _, h⟩ := h
  cases h
  rfl

/-- When the active key is absent, the in-place update appends it. -/
theorem mutateActive_absent {c : FeatureConfig} (hc : hasKey c "active" = false) :
    mutateActive c = c ++ [("active", .bool true)] := by
  simp [mutateActive, dictUpdate, hc]

/-- A key reported absent by hasKey is not found. -/
theorem find?_eq_none_of_hasKey_false {c : FeatureConfig} {k : String}
    (hc : hasKey c k = false) : c.find? (fun p => p.1 == k) = none := by
  rw [hasKey, List.any_eq_false] at hc
  rw [List.find?_eq_none]
  exact hc

/-- Looking up a key other than the appended one is unchanged. -/
theorem lookupKey_append_ne (c : FeatureConfig) (v : CfgVal) {k : String}
    (hk : k ≠ "active") :
    lookupKey (c ++ [("active", v)]) k = lookupKey c k := by
  unfold lookupKey
  rw [List.find?_append]
  have h1 : (("active" : String) == k) = false := beq_eq_false_iff_ne.mpr (Ne.symm hk)
  simp [List.find?, h1]

/-- C10 (implicit frame effect): a successful fit replaces the stored
configuration list by the interpreted one, in which every dictionary that
omitted the active key has received the binding active = True appended and
every other binding of every dictionary is unchanged. -/
theorem fit_inserts_active_default (pp : PreProcessor) (X : Table)
    (pp2 : PreProcessor) (h : pp.fit X = .ok pp2) :
    pp2.featuresConfig = interpretConfigList pp.featuresConfig ∧
    interpretConfigList pp.featuresConfig = pp.featuresConfig.map mutateActive ∧
    ∀ c ∈ pp.featuresConfig,
      (hasKey c "active" = false →
        mutateActive c = c ++ [("active", .bool true)] ∧
        lookupKey (mutateActive c) "active" = some (.bool true)) ∧
      (hasKey c "active" = true → mutateActive c = c) ∧
      (∀ k, k ≠ "active" → lookupKey (mutateActive c) k = lookupKey c k) := by
  refine ⟨fit_ok_featuresConfig h, rfl, fun c _ => ⟨?_, ?_, ?_⟩⟩
  · intro hc
    refine ⟨mutateActive_absent hc, ?_⟩
    rw [mutateActive_absent hc]
    unfold lookupKey
    rw [List.find?_append, find?_eq_none_of_hasKey_false hc]
    simp [List.find?]
  · intro hc
    simp [mutateActive, hc]
  · intro k hk
    by_cases hc : hasKey c "active"
    · simp [mutateActive, hc]
    · rw [mutateActive_absent (by simpa using hc)]
      exact lookupKey_append_ne c _ hk

/-- Closed instance of the active-default theorem on a one-feature
configuration lacking the active key. -/
theorem fit_inserts_active_default_witness :
    (onePp.fit oneX = .ok onePpFitted) ∧
    (onePpFitted.featuresConfig = interpretConfigList onePp.featuresConfig ∧
    interpretConfigList onePp.featuresConfig = onePp.featuresConfig.map mutateActive ∧
    ∀ c ∈ onePp.featuresConfig,
      (hasKey c "active" = false →
        mutateActive c = c ++ [("active", .bool true)] ∧
        lookupKey (mutateActive c) "active" = some (.bool true)) ∧
      (hasKey c "active" = true → mutateActive c = c) ∧
      (∀ k, k ≠ "active" → lookupKey (mutateActive c) k = lookupKey c k)) :=
  ⟨by decide, fit_inserts_active_default onePp oneX onePpFitted (by decide)⟩

/-- Replacing one named column leaves the lookup of any other name
unchanged. -/
theorem replaceColumn_lookup_ne {X : Table} {nm name : String} (c : Col)
    (h : nm ≠ name) : lookupCol (replaceColumn X nm c) name = lookupCol X name := by
  induction X with
  | nil => rfl
  | cons hd tl ih =>
    unfold replaceColumn lookupCol
    simp only [List.map_cons, List.find?]
    by_cases h1 : hd.1 == name
    · have hb : hd.1 = name := eq_of_beq h1
      have h2 : (hd.1 == nm) = false := by
        rw [beq_eq_false_iff_ne]
        intro hh
        exact h (hh.symm.trans hb)
      simp [h1, h2]
    · have h3 : ((if hd.1 == nm then (hd.1, c) else hd).1 == name) = false := by
        split <;> simpa using h1
      simp only [h3, Bool.false_eq_true, if_false, h1]
      exact ih

/-- Replacing a present named column makes its lookup the new column. -/
theorem replaceColumn_lookup_found {X : Table} {nm : String} {c0 : Col}
    (h : lookupCol X nm = some c0) (newCol : Col) :
    lookupCol (replaceColumn X nm newCol) nm = some newCol := by
  induction X with
  | nil => simp [lookupCol, List.find?] at h
  | cons hd tl ih =>
    unfold replaceColumn lookupCol
    simp only [List.map_cons, List.find?]
    by_cases h1 : hd.1 == nm
    · simp [h1]
    · unfold lookupCol at h
      simp only [List.find?, h1] at h
      simp only [h1, Bool.false_eq_true, if_false]
      exact ih h

/-- A successful column read is a successful lookup. -/
theorem getColumn_ok {X : Table} {nm : String} {col : Col} :
    getColumn X nm = .ok col ↔ lookupCol X nm = some col := by
  unfold getColumn lookupCol
  cases X.find? (fun c => c.1 == nm) <;> simp

/-- Casting never touches a column whose name is not among the declared
types. -/
theorem castColumns_lookup_notin {name : String} :
    ∀ (types : List (String × CfgVal)) (acc Y : Table),
      name ∉ types.map Prod.fst → castColumns types acc = .ok Y →
      lookupCol Y name = lookupCol acc name := by
  intro types
  induction types with
  | nil =>
    intro acc Y _ h
    cases h
    rfl
  | cons t ts ih =>
    intro acc Y hni h
    simp only [List.map_cons, List.mem_cons, not_or] at hni
    rw [castColumns, List.foldlM_cons, bindOkIff] at h
    obtain ⟨acc1, h1, h2⟩ := h
    rw [bindOkIff] at h1
    obtain ⟨col, _, h1⟩ := h1
    rw [bindOkIff] at h1
    obtain ⟨newCol, _, h1⟩ := h1
    cases h1
    rw [← castColumns] at h2
    rw [ih _ _ (hni.2) h2]
    exact replaceColumn_lookup_ne newCol (fun hh => hni.1 hh.symm)

/-- A successful integer cast rounds every entry half-to-even. -/
theorem castIntColumn_ok_eq {col out : Col} (h : castIntColumn col = .ok out) :
    out = col.map (Option.map (fun x => ((qRoundEven x : ℤ) : ℚ))) := by
  induction col generalizing out with
  | nil =>
    cases h
    rfl
  | cons v vs ih =>
    cases v with
    | none =>
      rw [castIntColumn, List.mapM_cons] at h
      simp [Except.bind, Bind.bind] at h
    | some x =>
      rw [castIntColumn, List.mapM_cons, bindOkIff] at h
      obtain ⟨b, hb, h⟩ := h
      rw [bindOkIff] at h
      obtain ⟨bs, hbs, h⟩ := h
      cases hb
      cases h
      rw [← castIntColumn] at hbs
      simp [List.map_cons, ih hbs]

/-- Half-to-even rounding lands on a nearest integer. -/
theorem qRoundEven_nearest (x : ℚ) (m : ℤ) :
    |x - ((qRoundEven x : ℤ) : ℚ)| ≤ |x - (m : ℚ)| := by
  have hhalf : |x - ((qRoundEven x : ℤ) : ℚ)| ≤ 1 / 2 := by
    unfold qRoundEven
    split_ifs with h1 h2
    · rw [show x - ((⌊x⌋ : ℤ) : ℚ) = 1 / 2 from h1]
      rw [abs_of_nonneg (by norm_num : (0 : ℚ) ≤ 1 / 2)]
    · have h3 : x - (((⌊x⌋ + 1 : ℤ)) : ℚ) = -(1 / 2) := by
        push_cast
        linarith [h1]
      rw [h3, abs_neg, abs_of_nonneg (by norm_num : (0 : ℚ) ≤ 1 / 2)]
    · exact abs_sub_round x
  by_cases hm : m = qRoundEven x
  · rw [hm]
  · have hne : qRoundEven x - m ≠ 0 := sub_ne_zero.mpr (fun hh => hm hh.symm)
    have h1 : (1 : ℤ) ≤ |qRoundEven x - m| := Int.one_le_abs hne
    have h2 : (1 : ℚ) ≤ |((qRoundEven x : ℤ) : ℚ) - (m : ℚ)| := by
      exact_mod_cast h1
    have h3 : |((qRoundEven x : ℤ) : ℚ) - (m : ℚ)| ≤
        |((qRoundEven x : ℤ) : ℚ) - x| + |x - (m : ℚ)| := abs_sub_le _ _ _
    have h4 : |((qRoundEven x : ℤ) : ℚ) - x| = |x - ((qRoundEven x : ℤ) : ℚ)| :=
      abs_sub_comm _ _
    linarith

/-- C9: after a successful cast, every entry of an integer-typed column is
the integer obtained by rounding the pre-cast pipeline value half-to-even,
which is a nearest integer; columns of every other declared type keep their
values unchanged. -/
theorem cast_int_rounds_half_even :
    ∀ (types : List (String × CfgVal)) (X Y : Table),
      (types.map Prod.fst).Nodup → castColumns types X = .ok Y →
      ∀ (name : String) (ty : CfgVal), (name, ty) ∈ types →
      ∃ cX cY, lookupCol X name = some cX ∧ lookupCol Y name = some cY ∧
        (typeHasInt (typeString ty) = true →
          cY = cX.map (Option.map (fun x => ((qRoundEven x : ℤ) : ℚ)))) ∧
        (typeHasInt (typeString ty) = false → cY = cX) ∧
        ∀ (x : ℚ) (m : ℤ), |x - ((qRoundEven x : ℤ) : ℚ)| ≤ |x - (m : ℚ)| := by
  intro types
  induction types with
  | nil =>
    intro X Y _ _ name ty hmem
    cases hmem
  | cons t ts ih =>
    intro X Y hnd h name ty hmem
    rw [castColumns, List.foldlM_cons, bindOkIff] at h
    obtain ⟨acc1, h1, h2⟩ := h
    rw [bindOkIff] at h1
    obtain ⟨col, hcol, h1⟩ := h1
    rw [bindOkIff] at h1
    obtain ⟨newCol, hnew, h1⟩ := h1
    cases h1
    rw [← castColumns] at h2
    simp only [List.map_cons, List.nodup_cons] at hnd
    rcases List.mem_cons.mp hmem with heq | htail
    · cases heq
      dsimp only at hcol hnew hnd h2
      have hfind : lookupCol X name = some col := getColumn_ok.mp hcol
      refine ⟨col, newCol, hfind, ?_, ?_, ?_, fun x m => qRoundEven_nearest x m⟩
      · rw [castColumns_lookup_notin ts _ _ hnd.1 h2]
        exact replaceColumn_lookup_found hfind newCol
      · intro hint
        simp only [castOneColumn, hint, if_true] at hnew
        exact castIntColumn_ok_eq hnew
      · intro hint
        simp only [castOneColumn, hint, Bool.false_eq_true, if_false] at hnew
        cases hnew
        rfl
    · have hname : name ∈ ts.map Prod.fst := List.mem_map.mpr ⟨(name, ty), htail, rfl⟩
      have hne : t.1 ≠ name := fun hh => hnd.1 (hh ▸ hname)
      obtain ⟨cX, cY, hx, hy, hi, hni, hnear⟩ :=
        ih (replaceColumn X t.1 newCol) Y hnd.2 h2 name ty htail
      refine ⟨cX, cY, ?_, hy, hi, hni, hnear⟩
      rw [← hx]
      exact (replaceColumn_lookup_ne newCol hne).symm

/-- The flattened rows coincide with their recursion-friendly
reformulation. -/
theorem flatRows_eq_flatAux (cfgs : List FeatureConfig) :
    flatRows cfgs = flatAux 0 cfgs := by
  suffices h : ∀ (l : List FeatureConfig) (j : ℕ),
      ((l.enumFrom j).map (fun jc =>
        (stepEntries jc.2).enum.map (fun ik => rowOf jc.1 jc.2 ik.1 ik.2))).flatten =
      flatAux j l by
    exact h cfgs 0
  intro l
  induction l with
  | nil => intro j; rfl
  | cons c rest ih =>
    intro j
    rw [List.enumFrom_cons, List.map_cons, List.flatten_cons, flatAux, ih (j + 1)]

/-- Counting a (feature order, transform order) pair distributes over
concatenation. -/
theorem countFO_append (j o : ℕ) (l1 l2 : List PlanRow) :
    countFO j o (l1 ++ l2) = countFO j o l1 + countFO j o l2 :=
  List.countP_append _ _ _

/-- Counting a (feature name, transform order) pair distributes over
concatenation. -/
theorem countName_append (col : String) (o : ℕ) (l1 l2 : List PlanRow) :
    countName col o (l1 ++ l2) = countName col o l1 + countName col o l2 :=
  List.countP_append _ _ _

/-- Indices of an enumeration hit each position exactly once. -/
theorem countP_enumFrom_idx {α : Type} (o : ℕ) :
    ∀ (l : List α) (n : ℕ),
      (l.enumFrom n).countP (fun ik => ik.1 == o) =
        if n ≤ o ∧ o < n + l.length then 1 else 0 := by
  intro l
  induction l with
  | nil =>
    intro n
    simp only [List.enumFrom_nil, List.countP_nil, List.length_nil, Nat.add_zero]
    rw [if_neg (by omega)]
  | cons a t ih =>
    intro n
    rw [List.enumFrom_cons, List.countP_cons, ih (n + 1)]
    simp only [beq_iff_eq, List.length_cons]
    split_ifs <;> omega

/-- Row count of one feature block of the flattened dataframe. -/
theorem block_countFO (j j' o : ℕ) (c : FeatureConfig) :
    countFO j' o ((stepEntries c).enum.map (fun ik => rowOf j c ik.1 ik.2)) =
      if j = j' ∧ o < stepCount c then 1 else 0 := by
  unfold countFO
  rw [List.countP_map]
  by_cases hj : j = j'
  · subst hj
    have he : ((fun r => r.featureOrder == j && r.transformOrder == o) ∘
        (fun ik => rowOf j c ik.1 ik.2)) = fun ik : ℕ × (String × CfgVal) => ik.1 == o := by
      funext ik
      simp [rowOf, Function.comp]
    rw [he, List.enum, countP_enumFrom_idx]
    simp only [Nat.zero_add, Nat.zero_le, true_and, stepCount]
  · have he : ((fun r => r.featureOrder == j' && r.transformOrder == o) ∘
        (fun ik => rowOf j c ik.1 ik.2)) = fun _ : ℕ × (String × CfgVal) => false := by
      funext ik
      simp [rowOf, Function.comp, hj]
    rw [he]
    rw [if_neg (fun hh => hj hh.1)]
    simp

/-- Row count of a (feature order, transform order) pair in the flattened
dataframe: one row when the feature exists and declares a step at that
order, none otherwise. -/
theorem flatAux_countFO (cfgs : List FeatureConfig) :
    ∀ (j0 j' o : ℕ),
      countFO j' o (flatAux j0 cfgs) =
        if j0 ≤ j' ∧ j' - j0 < cfgs.length ∧ o < stepCount (cfgs.getD (j' - j0) [])
        then 1 else 0 := by
  induction cfgs with
  | nil =>
    intro j0 j' o
    simp only [flatAux, countFO, List.countP_nil, List.length_nil]
    rw [if_neg (by omega)]
  | cons c rest ih =>
    intro j0 j' o
    rw [flatAux, countFO_append, block_countFO, ih (j0 + 1) j' o]
    rcases Nat.lt_trichotomy j' j0 with hlt | heq | hgt
    · rw [if_neg (show ¬(j0 = j' ∧ o < stepCount c) from fun hh => by omega),
        if_neg (show ¬(j0 + 1 ≤ j' ∧ j' - (j0 + 1) < rest.length ∧
          o < stepCount (rest.getD (j' - (j0 + 1)) [])) from fun hh => by
            exact absurd hh.1 (by omega)),
        if_neg (show ¬(j0 ≤ j' ∧ j' - j0 < (c :: rest).length ∧
          o < stepCount ((c :: rest).getD (j' - j0) [])) from fun hh => by
            exact absurd hh.1 (by omega))]
    · have hz : j' - j0 = 0 := by omega
      rw [hz, List.getD_cons_zero, List.length_cons,
        if_neg (show ¬(j0 + 1 ≤ j' ∧ j' - (j0 + 1) < rest.length ∧
          o < stepCount (rest.getD (j' - (j0 + 1)) [])) from fun hh => by
            exact absurd hh.1 (by omega))]
      by_cases ho : o < stepCount c
      · rw [if_pos ⟨heq.symm, ho⟩, if_pos ⟨by omega, by omega, ho⟩]
      · rw [if_neg (fun hh => ho hh.2), if_neg (fun hh => ho hh.2.2)]
    · have hz : j' - j0 = (j' - (j0 + 1)) + 1 := by omega
      rw [hz, List.getD_cons_succ, List.length_cons,
        if_neg (show ¬(j0 = j' ∧ o < stepCount c) from fun hh => by omega)]
      by_cases hc : j0 + 1 ≤ j' ∧ j' - (j0 + 1) < rest.length ∧
          o < stepCount (rest.getD (j' - (j0 + 1)) [])
      · rw [if_pos hc, if_pos ⟨by omega, by omega, hc.2.2⟩]
      · rw [if_neg hc, if_neg (fun hh => hc ⟨by omega, by omega, hh.2.2⟩)]

/-- Every flattened row names the feature at its recorded position. -/
theorem flatAux_align (cfgs : List FeatureConfig) :
    ∀ (j0 : ℕ) (r : PlanRow), r ∈ flatAux j0 cfgs →
      j0 ≤ r.featureOrder ∧ r.featureOrder - j0 < cfgs.length ∧
      r.featureName = cfgName (cfgs.getD (r.featureOrder - j0) []) := by
  induction cfgs with
  | nil =>
    intro j0 r hr
    simp [flatAux] at hr
  | cons c rest ih =>
    intro j0 r hr
    rw [flatAux, List.mem_append] at hr
    rcases hr with hb | hrest
    · obtain ⟨ik, _, hik⟩ := List.mem_map.mp hb
      subst hik
      refine ⟨Nat.le_refl _, ?_, ?_⟩
      · simp [rowOf]
      · simp [rowOf]
    · obtain ⟨h1, h2, h3⟩ := ih (j0 + 1) r hrest
      refine ⟨by omega, by simp; omega, ?_⟩
      have hs : r.featureOrder - j0 = (r.featureOrder - (j0 + 1)) + 1 := by omega
      rw [hs, List.getD_cons_succ]
      exact h3

/-- Membership in the deduplicated list with a seen accumulator. -/
theorem mem_uniqueFirstAux :
    ∀ (l seen : List ℕ) (a : ℕ), a ∈ uniqueFirstAux l seen ↔ a ∈ l ∧ a ∉ seen := by
  intro l
  induction l with
  | nil => intro seen a; simp [uniqueFirstAux]
  | cons x xs ih =>
    intro seen a
    by_cases hx : x ∈ seen
    · rw [uniqueFirstAux, if_pos hx, ih]
      constructor
      · exact fun h => ⟨List.mem_cons_of_mem x h.1, h.2⟩
      · rintro ⟨hm, hns⟩
        rcases List.mem_cons.mp hm with rfl | hm2
        · exact absurd hx hns
        · exact ⟨hm2, hns⟩
    · rw [uniqueFirstAux, if_neg hx]
      by_cases hax : a = x
      · subst hax
        simp [hx]
      · constructor
        · intro h
          rcases List.mem_cons.mp h with rfl | h2
          · exact absurd rfl hax
          · have := (ih (x :: seen) a).mp h2
            exact ⟨List.mem_cons_of_mem x this.1,
              fun hs => this.2 (List.mem_cons_of_mem x hs)⟩
        · rintro ⟨hm, hns⟩
          rcases List.mem_cons.mp hm with rfl | hm2
          · exact absurd rfl hax
          · exact List.mem_cons_of_mem x ((ih (x :: seen) a).mpr
              ⟨hm2, fun hs => (List.mem_cons.mp hs).elim hax hns⟩)

/-- Membership in the first-occurrence deduplication. -/
theorem mem_uniqueFirst (l : List ℕ) (a : ℕ) : a ∈ uniqueFirst l ↔ a ∈ l := by
  rw [uniqueFirst, mem_uniqueFirstAux]
  simp

/-- Transform orders below the maximum step count are exactly those declared
by some feature. -/
theorem lt_maxSteps_iff (cfgs : List FeatureConfig) (o : ℕ) :
    o < maxSteps cfgs ↔ ∃ j, j < cfgs.length ∧ o < stepCount (cfgs.getD j []) := by
  induction cfgs with
  | nil => simp [maxSteps]
  | cons c rest ih =>
    have hm : maxSteps (c :: rest) = max (stepCount c) (maxSteps rest) := rfl
    rw [hm, lt_max_iff, ih]
    constructor
    · rintro (hc | ⟨j, hj, ho⟩)
      · exact ⟨0, by simp, by simpa using hc⟩
      · exact ⟨j + 1, by simpa using hj, by simpa using ho⟩
    · rintro ⟨j, hj, ho⟩
      cases j with
      | zero => exact Or.inl (by simpa using ho)
      | succ t =>
        exact Or.inr ⟨t, by simpa using hj, by simpa using ho⟩

/-- A row respecting its own feature order and transform order witnesses a
positive pair count. -/
theorem countFO_pos_of_mem {r : PlanRow} {l : List PlanRow} (h : r ∈ l) :
    0 < countFO r.featureOrder r.transformOrder l := by
  unfold countFO
  rw [List.countP_pos_iff]
  exact ⟨r, h, by simp⟩

/-- The observed transform orders of the flattened rows are exactly those
below the maximum step count. -/
theorem mem_flat_orders_iff (cfgs : List FeatureConfig) (o : ℕ) :
    o ∈ uniqueFirst ((flatRows cfgs).map (·.transformOrder)) ↔ o < maxSteps cfgs := by
  rw [mem_uniqueFirst, List.mem_map]
  constructor
  · rintro ⟨r, hr, rfl⟩
    rw [flatRows_eq_flatAux] at hr
    have hpos := countFO_pos_of_mem hr
    rw [flatAux_countFO] at hpos
    by_cases hc : 0 ≤ r.featureOrder ∧ r.featureOrder - 0 < cfgs.length ∧
        r.transformOrder < stepCount (cfgs.getD (r.featureOrder - 0) [])
    · exact (lt_maxSteps_iff cfgs _).mpr ⟨r.featureOrder - 0, hc.2.1, hc.2.2⟩
    · rw [if_neg hc] at hpos
      exact absurd hpos (by omega)
  · intro ho
    obtain ⟨j, hj, hs⟩ := (lt_maxSteps_iff cfgs o).mp ho
    have h1 : countFO j o (flatAux 0 cfgs) = 1 := by
      rw [flatAux_countFO, if_pos ⟨Nat.zero_le _, by simpa using hj, by simpa using hs⟩]
    have hpos : 0 < countFO j o (flatAux 0 cfgs) := by omega
    unfold countFO at hpos
    rw [List.countP_pos_iff] at hpos
    obtain ⟨r, hr, hp⟩ := hpos
    simp only [Bool.and_eq_true, beq_iff_eq] at hp
    exact ⟨r, by rw [flatRows_eq_flatAux]; exact hr, hp.2⟩

/-- The synthesis-loop guard tests exactly the (name, order) row count. -/
theorem synthStep_eq (names : List String) (aD tD : List (String × CfgVal))
    (order : ℕ) (df : List PlanRow) (col : String) :
    synthStep names aD tD order df col =
      if countName col order df = 0 then df ++ [synthRow names aD tD col order]
      else df := by
  rw [synthStep, countName, List.countP_eq_length_filter]

/-- Count of a (name, order) pair in a single synthesized row. -/
theorem countName_synthRow (names : List String) (aD tD : List (String × CfgVal))
    (col col' : String) (o o' : ℕ) :
    countName col' o' [synthRow names aD tD col o] =
      if col = col' ∧ o = o' then 1 else 0 := by
  by_cases h1 : col = col' <;> by_cases h2 : o = o' <;>
    simp [countName, synthRow, List.countP_cons, List.countP_nil, h1, h2]

/-- Effect of the inner synthesis loop on a (name, order) row count: pairs
with the loop order and a visited name are topped up to at least one row;
every other count is untouched. -/
theorem foldl_synthStep_countName (names : List String) (aD tD : List (String × CfgVal))
    (o : ℕ) (col' : String) (o' : ℕ) :
    ∀ (loopNames : List String) (df : List PlanRow),
      countName col' o' (loopNames.foldl (synthStep names aD tD o) df) =
        if col' ∈ loopNames ∧ o' = o then max 1 (countName col' o' df)
        else countName col' o' df := by
  intro loopNames
  induction loopNames with
  | nil =>
    intro df
    rw [List.foldl_nil, if_neg (fun hh => List.not_mem_nil col' hh.1)]
  | cons col ns ih =>
    intro df
    rw [List.foldl_cons, ih]
    have hstep : countName col' o' (synthStep names aD tD o df col) =
        if col' = col ∧ o' = o ∧ countName col o df = 0 then countName col' o' df + 1
        else countName col' o' df := by
      rw [synthStep_eq]
      by_cases hz : countName col o df = 0
      · rw [if_pos hz, countName_append, countName_synthRow]
        by_cases h1 : col = col' ∧ o = o'
        · rw [if_pos h1, if_pos ⟨h1.1.symm, h1.2.symm, hz⟩]
        · rw [if_neg h1, if_neg (fun hh => h1 ⟨hh.1.symm, hh.2.1.symm⟩), Nat.add_zero]
      · rw [if_neg hz, if_neg (fun hh => hz hh.2.2)]
    rw [hstep]
    by_cases hc1 : col' = col
    · subst hc1
      by_cases ho : o' = o
      · subst ho
        by_cases hz : countName col' o' df = 0
        · rw [if_pos (show col' = col' ∧ o' = o' ∧ countName col' o' df = 0 from
            ⟨rfl, rfl, hz⟩)]
          by_cases hmem : col' ∈ ns
          · rw [if_pos (show col' ∈ ns ∧ o' = o' from ⟨hmem, rfl⟩),
              if_pos (show col' ∈ col' :: ns ∧ o' = o' from
                ⟨List.mem_cons_of_mem _ hmem, rfl⟩)]
            omega
          · rw [if_neg (show ¬(col' ∈ ns ∧ o' = o') from fun hh => hmem hh.1),
              if_pos (show col' ∈ col' :: ns ∧ o' = o' from
                ⟨List.mem_cons_self _ _, rfl⟩)]
            omega
        · rw [if_neg (show ¬(col' = col' ∧ o' = o' ∧ countName col' o' df = 0) from
            fun hh => hz hh.2.2)]
          by_cases hmem : col' ∈ ns
          · rw [if_pos (show col' ∈ ns ∧ o' = o' from ⟨hmem, rfl⟩),
              if_pos (show col' ∈ col' :: ns ∧ o' = o' from
                ⟨List.mem_cons_of_mem _ hmem, rfl⟩)]
          · rw [if_neg (show ¬(col' ∈ ns ∧ o' = o') from fun hh => hmem hh.1),
              if_pos (show col' ∈ col' :: ns ∧ o' = o' from
                ⟨List.mem_cons_self _ _, rfl⟩)]
            omega
      · rw [if_neg (fun hh : col' = col' ∧ o' = o ∧ countName col' o df = 0 => ho hh.2.1),
          if_neg (fun hh : col' ∈ ns ∧ o' = o => ho hh.2),
          if_neg (fun hh : col' ∈ col' :: ns ∧ o' = o => ho hh.2)]
    · rw [if_neg (fun hh : col' = col ∧ o' = o ∧ countName col o df = 0 => hc1 hh.1)]
      by_cases hm2 : col' ∈ ns ∧ o' = o
      · rw [if_pos hm2, if_pos ⟨List.mem_cons_of_mem _ hm2.1, hm2.2⟩]
      · rw [if_neg hm2,
          if_neg (fun hh => hm2 ⟨(List.mem_cons.mp hh.1).resolve_left hc1, hh.2⟩)]

/-- Unfolding of the outer synthesis loop by one observed order. -/
theorem synthesize_cons (names : List String) (aD tD : List (String × CfgVal))
    (o : ℕ) (os : List ℕ) (df : List PlanRow) :
    synthesize names aD tD (o :: os) df =
      synthesize names aD tD os (synthInner names aD tD o df) := rfl

/-- Effect of the whole synthesis pass on a (name, order) row count. -/
theorem synthesize_countName (names : List String) (aD tD : List (String × CfgVal))
    (col' : String) (o' : ℕ) :
    ∀ (orders : List ℕ) (df : List PlanRow),
      countName col' o' (synthesize names aD tD orders df) =
        if col' ∈ names ∧ o' ∈ orders then max 1 (countName col' o' df)
        else countName col' o' df := by
  intro orders
  induction orders with
  | nil =>
    intro df
    rw [synthesize, List.foldl_nil, if_neg (fun hh => List.not_mem_nil o' hh.2)]
  | cons o os ih =>
    intro df
    rw [synthesize_cons, ih]
    have hinner := foldl_synthStep_countName names aD tD o col' o' names df
    rw [synthInner, hinner]
    by_cases hcn : col' ∈ names <;> by_cases ho : o' = o <;> by_cases hos : o' ∈ os <;>
      simp [hcn, ho, hos, List.mem_cons]

/-- The inner synthesis loop only appends rows, all of them synthesized
identity rows for visited names at the loop order. -/
theorem foldl_synthStep_extra (names : List String) (aD tD : List (String × CfgVal))
    (o : ℕ) :
    ∀ (loopNames : List String) (df : List PlanRow),
      ∃ extra, loopNames.foldl (synthStep names aD tD o) df = df ++ extra ∧
        ∀ r ∈ extra, ∃ col ∈ loopNames, r = synthRow names aD tD col o := by
  intro loopNames
  induction loopNames with
  | nil =>
    intro df
    exact ⟨[], by simp, by simp⟩
  | cons col ns ih =>
    intro df
    rw [List.foldl_cons, synthStep_eq]
    by_cases hz : countName col o df = 0
    · rw [if_pos hz]
      obtain ⟨extra, he, hall⟩ := ih (df ++ [synthRow names aD tD col o])
      refine ⟨synthRow names aD tD col o :: extra, by rw [he]; simp, ?_⟩
      intro r hr
      rcases List.mem_cons.mp hr with rfl | hr2
      · exact ⟨col, List.mem_cons_self _ _, rfl⟩
      · obtain ⟨c2, hc2, hr3⟩ := hall r hr2
        exact ⟨c2, List.mem_cons_of_mem _ hc2, hr3⟩
    · rw [if_neg hz]
      obtain ⟨extra, he, hall⟩ := ih df
      refine ⟨extra, he, ?_⟩
      intro r hr
      obtain ⟨c2, hc2, hr3⟩ := hall r hr
      exact ⟨c2, List.mem_cons_of_mem _ hc2, hr3⟩

/-- The whole synthesis pass only appends synthesized identity rows for
configured names at observed orders. -/
theorem synthesize_extra (names : List String) (aD tD : List (String × CfgVal)) :
    ∀ (orders : List ℕ) (df : List PlanRow),
      ∃ extra, synthesize names aD tD orders df = df ++ extra ∧
        ∀ r ∈ extra, ∃ col ∈ names, ∃ o ∈ orders, r = synthRow names aD tD col o := by
  intro orders
  induction orders with
  | nil =>
    intro df
    exact ⟨[], by simp [synthesize], by simp⟩
  | cons o os ih =>
    intro df
    obtain ⟨e1, he1, hall1⟩ := foldl_synthStep_extra names aD tD o names df
    obtain ⟨e2, he2, hall2⟩ := ih (df ++ e1)
    rw [synthesize_cons, synthInner, he1, he2, List.append_assoc]
    refine ⟨e1 ++ e2, rfl, ?_⟩
    intro r hr
    rcases List.mem_append.mp hr with h1 | h2
    · obtain ⟨col, hcol, hr2⟩ := hall1 r h1
      exact ⟨col, hcol, o, List.mem_cons_self _ _, hr2⟩
    · obtain ⟨col, hcol, o2, ho2, hr2⟩ := hall2 r h2
      exact ⟨col, hcol, o2, List.mem_cons_of_mem _ ho2, hr2⟩

/-- Unfolding of the action-plan compiler into its phases. -/
theorem createActionPlan_eq (cfgs : List FeatureConfig) :
    createActionPlan cfgs =
      List.insertionSort planLE
        (synthesize (cfgs.map cfgName)
          (cfgs.map (fun c => (cfgName c, cfgActiveV c)))
          (cfgs.map (fun c => (cfgName c, cfgTypeV c)))
          (uniqueFirst ((flatRows cfgs).map (·.transformOrder)))
          (flatRows cfgs)) := rfl

/-- Every flattened row is coherent with the configured name list. -/
theorem flatRows_aligned (cfgs : List FeatureConfig) (r : PlanRow)
    (hr : r ∈ flatRows cfgs) : AlignedRow (cfgs.map cfgName) r := by
  rw [flatRows_eq_flatAux] at hr
  obtain ⟨h1, h2, h3⟩ := flatAux_align cfgs 0 r hr
  rw [Nat.sub_zero] at h2 h3
  refine ⟨by simpa using h2, ?_⟩
  rw [List.getD_eq_getElem _ _ (by simpa using h2), List.getElem_map, h3,
    List.getD_eq_getElem _ _ h2]

/-- Every synthesized row for a configured name is coherent with the
configured name list. -/
theorem synthRow_aligned (names : List String) (aD tD : List (String × CfgVal))
    (col : String) (o : ℕ) (hcol : col ∈ names) :
    AlignedRow names (synthRow names aD tD col o) := by
  have hlt : names.indexOf col < names.length := List.indexOf_lt_length.mpr hcol
  refine ⟨hlt, ?_⟩
  show names.getD (names.indexOf col) "" = col
  rw [List.getD_eq_getElem _ _ hlt, List.getElem_indexOf hlt]

/-- Every row of the compiled action plan is coherent with the configured
name list. -/
theorem createActionPlan_aligned (cfgs : List FeatureConfig) (r : PlanRow)
    (hr : r ∈ createActionPlan cfgs) : AlignedRow (cfgs.map cfgName) r := by
  rw [createActionPlan_eq] at hr
  rw [(List.perm_insertionSort planLE _).mem_iff] at hr
  obtain ⟨extra, he, hall⟩ := synthesize_extra (cfgs.map cfgName)
    (cfgs.map (fun c => (cfgName c, cfgActiveV c)))
    (cfgs.map (fun c => (cfgName c, cfgTypeV c)))
    (uniqueFirst ((flatRows cfgs).map (·.transformOrder))) (flatRows cfgs)
  rw [he, List.mem_append] at hr
  rcases hr with h1 | h2
  · exact flatRows_aligned cfgs r h1
  · obtain ⟨col, hcol, o, _, hr2⟩ := hall r h2
    rw [hr2]
    exact synthRow_aligned _ _ _ col o hcol

/-- With unique feature names, counting rows by name coincides with counting
rows by feature order on any coherent row list. -/
theorem countName_eq_countFO (names : List String) (hnod : names.Nodup)
    (l : List PlanRow) (halign : ∀ r ∈ l, AlignedRow names r) (j : ℕ)
    (hj : j < names.length) (o : ℕ) :
    countName (names.getD j "") o l = countFO j o l := by
  unfold countName countFO
  apply List.countP_congr
  intro r hr
  obtain ⟨hlt, hname⟩ := halign r hr
  simp only [Bool.and_eq_true, beq_iff_eq]
  constructor
  · rintro ⟨h1, h2⟩
    refine ⟨?_, h2⟩
    have : names[r.featureOrder] = names[j] := by
      rw [← List.getD_eq_getElem names "" hlt, ← List.getD_eq_getElem names "" hj, hname, h1]
    exact (List.Nodup.getElem_inj_iff hnod).mp this
  · rintro ⟨h1, h2⟩
    refine ⟨?_, h2⟩
    rw [← hname, h1]

/-- The compiled plan holds exactly one row for every feature at every stage
of the grid. -/
theorem createActionPlan_countFO (cfgs : List FeatureConfig)
    (hn : (cfgs.map cfgName).Nodup) (o j : ℕ) (ho : o < maxSteps cfgs)
    (hj : j < cfgs.length) :
    countFO j o (createActionPlan cfgs) = 1 := by
  have hjn : j < (cfgs.map cfgName).length := by simpa using hj
  rw [← countName_eq_countFO (cfgs.map cfgName) hn _
    (fun r hr => createActionPlan_aligned cfgs r hr) j hjn o]
  have hperm : List.Perm (createActionPlan cfgs)
      (synthesize (cfgs.map cfgName)
        (cfgs.map (fun c => (cfgName c, cfgActiveV c)))
        (cfgs.map (fun c => (cfgName c, cfgTypeV c)))
        (uniqueFirst ((flatRows cfgs).map (·.transformOrder)))
        (flatRows cfgs)) := by
    rw [createActionPlan_eq]
    exact List.perm_insertionSort planLE _
  unfold countName
  rw [hperm.countP_eq]
  rw [← countName]
  rw [synthesize_countName, if_pos ?hc]
  case hc =>
    constructor
    · rw [List.getD_eq_getElem _ _ hjn]
      exact List.getElem_mem hjn
    · rw [mem_flat_orders_iff]
      exact ho
  rw [countName_eq_countFO (cfgs.map cfgName) hn _
    (fun r hr => flatRows_aligned cfgs r hr) j hjn o]
  rw [flatRows_eq_flatAux, flatAux_countFO]
  split_ifs <;> omega

/-- Row count of a stage equals the sum over feature orders of the pair
counts, provided every row has a feature order below the bound. -/
theorem countP_stage_partition (o N : ℕ) :
    ∀ (l : List PlanRow), (∀ r ∈ l, r.featureOrder < N) →
      l.countP (fun r => r.transformOrder == o) =
        ∑ j ∈ Finset.range N, countFO j o l := by
  intro l
  induction l with
  | nil =>
    intro _
    simp [countFO]
  | cons r t ih =>
    intro hb
    have hstep : ∀ j, countFO j o (r :: t) =
        countFO j o t + if r.featureOrder == j && r.transformOrder == o then 1 else 0 :=
      fun j => List.countP_cons _ _ _
    rw [List.countP_cons, Finset.sum_congr rfl (fun j _ => hstep j),
      Finset.sum_add_distrib, ih (fun x hx => hb x (List.mem_cons_of_mem _ hx))]
    congr 1
    by_cases hto : r.transformOrder = o
    · have he : ∀ j : ℕ,
          (if r.featureOrder == j && r.transformOrder == o then 1 else 0) =
            if r.featureOrder = j then 1 else 0 := by
        intro j
        simp [hto]
      rw [Finset.sum_congr rfl (fun j _ => he j), Finset.sum_ite_eq]
      simp [hto, Finset.mem_range.mpr (hb r (List.mem_cons_self _ _))]
    · have he : ∀ j : ℕ,
          (if r.featureOrder == j && r.transformOrder == o then 1 else 0) = 0 := by
        intro j
        simp [hto]
      rw [Finset.sum_congr rfl (fun j _ => he j)]
      simp [hto]

/-- Splitting a count along a second predicate. -/
theorem countP_split {α : Type} (p q : α → Bool) :
    ∀ l : List α,
      l.countP p = l.countP (fun a => p a && q a) + l.countP (fun a => p a && !q a) := by
  intro l
  induction l with
  | nil => simp
  | cons a t ih =>
    rw [List.countP_cons, List.countP_cons, List.countP_cons, ih]
    cases hp : p a <;> cases hq : q a <;> simp [hp, hq] <;> omega

/-- A transform order appearing in the compiled plan is below the maximum
step count. -/
theorem createActionPlan_to_lt (cfgs : List FeatureConfig) (r : PlanRow)
    (hr : r ∈ createActionPlan cfgs) : r.transformOrder < maxSteps cfgs := by
  rw [createActionPlan_eq, (List.perm_insertionSort planLE _).mem_iff] at hr
  obtain ⟨extra, he, hall⟩ := synthesize_extra (cfgs.map cfgName)
    (cfgs.map (fun c => (cfgName c, cfgActiveV c)))
    (cfgs.map (fun c => (cfgName c, cfgTypeV c)))
    (uniqueFirst ((flatRows cfgs).map (·.transformOrder))) (flatRows cfgs)
  rw [he, List.mem_append] at hr
  rcases hr with h1 | h2
  · rw [← mem_flat_orders_iff]
    rw [mem_uniqueFirst]
    exact List.mem_map.mpr ⟨r, h1, rfl⟩
  · obtain ⟨col, _, o, hom, hr2⟩ := hall r h2
    have : r.transformOrder = o := by rw [hr2]; rfl
    rw [this, ← mem_flat_orders_iff]
    exact hom

/-- C3: with unique feature names, the compiled action plan has exactly
max(c1..cN) stages — it is empty when every feature declares no step — and
every stage holds exactly one row per feature, the rows absent from the raw
declarations being synthesized with key transformation and value identity. -/
theorem action_plan_stage_grid (cfgs : List FeatureConfig)
    (hn : (cfgs.map cfgName).Nodup) :
    (∀ o : ℕ, (∃ r ∈ createActionPlan cfgs, r.transformOrder = o) ↔ o < maxSteps cfgs) ∧
    ((createActionPlan cfgs).map (·.transformOrder)).dedup.length = maxSteps cfgs ∧
    (maxSteps cfgs = 0 → createActionPlan cfgs = []) ∧
    (∀ o : ℕ, o < maxSteps cfgs →
      ((createActionPlan cfgs).filter (fun r => r.transformOrder == o)).length =
        cfgs.length) ∧
    (∀ o : ℕ, o < maxSteps cfgs → ∀ j : ℕ, j < cfgs.length →
      countFO j o (createActionPlan cfgs) = 1) ∧
    (∀ o : ℕ, o < maxSteps cfgs → ∀ j : ℕ, j < cfgs.length →
      stepCount (cfgs.getD j []) ≤ o →
      (createActionPlan cfgs).countP (fun r =>
        (r.featureOrder == j && r.transformOrder == o) &&
        (r.key == "transformation" && r.value == CfgVal.str "identity")) = 1) := by
  have hmem : ∀ o : ℕ,
      (∃ r ∈ createActionPlan cfgs, r.transformOrder = o) ↔ o < maxSteps cfgs := by
    intro o
    constructor
    · rintro ⟨r, hr, rfl⟩
      exact createActionPlan_to_lt cfgs r hr
    · intro ho
      obtain ⟨j, hj, _⟩ := (lt_maxSteps_iff cfgs o).mp ho
      have h1 := createActionPlan_countFO cfgs hn o j ho hj
      have hpos : 0 < countFO j o (createActionPlan cfgs) := by omega
      unfold countFO at hpos
      rw [List.countP_pos_iff] at hpos
      obtain ⟨r, hr, hp⟩ := hpos
      simp only [Bool.and_eq_true, beq_iff_eq] at hp
      exact ⟨r, hr, hp.2⟩
  refine ⟨hmem, ?_, ?_, ?_,
    fun o ho j hj => createActionPlan_countFO cfgs hn o j ho hj, ?_⟩
  · have hd1 : (((createActionPlan cfgs).map (·.transformOrder)).dedup).Nodup :=
      List.nodup_dedup _
    have hd2 : (List.range (maxSteps cfgs)).Nodup := List.nodup_range _
    have hmm : ∀ a, a ∈ ((createActionPlan cfgs).map (·.transformOrder)).dedup ↔
        a ∈ List.range (maxSteps cfgs) := by
      intro a
      rw [List.mem_dedup, List.mem_range, List.mem_map]
      constructor
      · rintro ⟨r, hr, rfl⟩
        exact createActionPlan_to_lt cfgs r hr
      · intro ha
        exact (hmem a).mpr ha
    have hp := (List.perm_ext_iff_of_nodup hd1 hd2).mpr hmm
    rw [hp.length_eq, List.length_range]
  · intro h0
    rw [List.eq_nil_iff_forall_not_mem]
    intro r hr
    have := createActionPlan_to_lt cfgs r hr
    omega
  · intro o ho
    rw [← List.countP_eq_length_filter]
    have halign : ∀ r ∈ createActionPlan cfgs, r.featureOrder < cfgs.length := by
      intro r hr
      have := (createActionPlan_aligned cfgs r hr).1
      simpa using this
    rw [countP_stage_partition o cfgs.length _ halign,
      Finset.sum_congr rfl
        (fun j hj => createActionPlan_countFO cfgs hn o j ho (Finset.mem_range.mp hj))]
    simp
  · intro o ho j hj hstep
    have hsplit := countP_split (fun r => r.featureOrder == j && r.transformOrder == o)
      (fun r => r.key == "transformation" && r.value == CfgVal.str "identity")
      (createActionPlan cfgs)
    have hzero : (createActionPlan cfgs).countP (fun r =>
        (r.featureOrder == j && r.transformOrder == o) &&
        !(r.key == "transformation" && r.value == CfgVal.str "identity")) = 0 := by
      rw [List.countP_eq_zero]
      intro r hr hp
      simp only [Bool.and_eq_true, Bool.not_eq_true', beq_iff_eq] at hp
      rw [createActionPlan_eq, (List.perm_insertionSort planLE _).mem_iff] at hr
      obtain ⟨extra, he, hall⟩ := synthesize_extra (cfgs.map cfgName)
        (cfgs.map (fun c => (cfgName c, cfgActiveV c)))
        (cfgs.map (fun c => (cfgName c, cfgTypeV c)))
        (uniqueFirst ((flatRows cfgs).map (·.transformOrder))) (flatRows cfgs)
      rw [he, List.mem_append] at hr
      rcases hr with h1 | h2
      · have hpos : 0 < countFO j o (flatRows cfgs) := by
          unfold countFO
          rw [List.countP_pos_iff]
          exact ⟨r, h1, by simp [hp.1.1, hp.1.2]⟩
        rw [flatRows_eq_flatAux, flatAux_countFO] at hpos
        by_cases hc : 0 ≤ j ∧ j - 0 < cfgs.length ∧ o < stepCount (cfgs.getD (j - 0) [])
        · have h3 := hc.2.2
          rw [Nat.sub_zero] at h3
          omega
        · rw [if_neg hc] at hpos
          exact absurd hpos (by omega)
      · obtain ⟨col, _, o2, _, hr2⟩ := hall r h2
        have hk : r.key = "transformation" := by rw [hr2]; rfl
        have hv : r.value = CfgVal.str "identity" := by rw [hr2]; rfl
        have h2f := hp.2
        rw [hk, hv] at h2f
        simp at h2f
    have hcnt := createActionPlan_countFO cfgs hn o j ho hj
    unfold countFO at hcnt
    omega

/-- Closed instance of the stage-grid theorem on a two-feature
configuration with step counts 2 and 1. -/
theorem action_plan_stage_grid_witness :
    ((exCfgs.map cfgName).Nodup) ∧
    ((∀ o : ℕ, (∃ r ∈ createActionPlan exCfgs, r.transformOrder = o) ↔ o < maxSteps exCfgs) ∧
    ((createActionPlan exCfgs).map (·.transformOrder)).dedup.length = maxSteps exCfgs ∧
    (maxSteps exCfgs = 0 → createActionPlan exCfgs = []) ∧
    (∀ o : ℕ, o < maxSteps exCfgs →
      ((createActionPlan exCfgs).filter (fun r => r.transformOrder == o)).length =
        exCfgs.length) ∧
    (∀ o : ℕ, o < maxSteps exCfgs → ∀ j : ℕ, j < exCfgs.length →
      countFO j o (createActionPlan exCfgs) = 1) ∧
    (∀ o : ℕ, o < maxSteps exCfgs → ∀ j : ℕ, j < exCfgs.length →
      stepCount (exCfgs.getD j []) ≤ o →
      (createActionPlan exCfgs).countP (fun r =>
        (r.featureOrder == j && r.transformOrder == o) &&
        (r.key == "transformation" && r.value == CfgVal.str "identity")) = 1)) :=
  ⟨by decide, action_plan_stage_grid exCfgs (by decide)⟩

/-- C4: the rows of the compiled action plan are ordered first by transform
order ascending and then, within equal transform order, by feature order
ascending. -/
theorem action_plan_sorted (cfgs : List FeatureConfig) :
    (createActionPlan cfgs).Pairwise (fun r s =>
      r.transformOrder < s.transformOrder ∨
        (r.transformOrder = s.transformOrder ∧ r.featureOrder ≤ s.featureOrder)) := by
  rw [createActionPlan_eq]
  exact List.sorted_insertionSort planLE _

unseal Rat.add Rat.sub Rat.mul Rat.inv in
/-- Closed instance of the casting theorem: a column declared int64 holding
3/2 is cast to 2 (round half to even). -/
theorem cast_int_rounds_half_even_witness :
    (([("a", CfgVal.str "int64")].map Prod.fst).Nodup ∧
     castColumns [("a", CfgVal.str "int64")] [("a", [some ((3 : ℚ) / 2)])] =
       .ok [("a", [some (2 : ℚ)])] ∧
     ("a", CfgVal.str "int64") ∈ [("a", CfgVal.str "int64")]) ∧
    (∃ cX cY, lookupCol [("a", [some ((3 : ℚ) / 2)])] "a" = some cX ∧
      lookupCol [("a", [some (2 : ℚ)])] "a" = some cY ∧
      (typeHasInt (typeString (CfgVal.str "int64")) = true →
        cY = cX.map (Option.map (fun x => ((qRoundEven x : ℤ) : ℚ)))) ∧
      (typeHasInt (typeString (CfgVal.str "int64")) = false → cY = cX) ∧
      ∀ (x : ℚ) (m : ℤ), |x - ((qRoundEven x : ℤ) : ℚ)| ≤ |x - (m : ℚ)|) :=
  ⟨⟨by decide, by decide, by decide⟩,
   cast_int_rounds_half_even [("a", CfgVal.str "int64")]
     [("a", [some ((3 : ℚ) / 2)])] [("a", [some (2 : ℚ)])]
     (by decide) (by decide) "a" (CfgVal.str "int64") (by decide)⟩

end HousePrices
